import Mathlib

/-!
Verification of the fractal point-generation engine in `src/simulator.py`.

The embedding below translates the generation code directly:

* Floating-point numbers of the two stochastic samplers (Barnsley IFS and
  Sierpinski midpoint iteration) are modelled as exact rationals `ℚ`: every
  Python float is a (dyadic) rational, and all constants appearing in those
  code paths are decimal literals, so the model is executable and decidable.
* The Koch subdivider multiplies by `√3/2` (`np.sqrt(3)/2`), so its points
  are modelled over the reals `ℝ` with the exact `Real.sqrt 3`.
* The global random source (`random.random()` / `random.choice`) is modelled
  as an explicit stream parameter giving the value drawn at each loop index.
* Constants that the script hardcodes (`num_points = 200000`,
  `total_points = 30000`, the triangle vertices `A`, `B`, `C`) become
  parameters; the hardcoded values are kept as concrete instances.
* Fallible operations (a Python `IndexError` on `transformations[-1]` of an
  empty list, or on writing `points[0]` of a zero-row array) are modelled
  with `Option`.
-/

/-- 2D point of the stochastic samplers; float coordinates are modelled as
exact rationals. -/
abbrev Pt := ℚ × ℚ

/-- A 2×2 coefficient matrix, as the `np.array([[a, b], [c, d]])` literals of
the source. -/
structure Mat2 (α : Type) where
  a : α
  b : α
  c : α
  d : α

/-- Matrix–vector product, as numpy `matrix.dot(point)` for a 2×2 matrix and a
2-vector. -/
def Mat2.mulVec {α : Type} [Mul α] [Add α] (m : Mat2 α) (p : α × α) : α × α :=
  (m.a * p.1 + m.b * p.2, m.c * p.1 + m.d * p.2)

/-- One entry of the transform table (source lines 25–50): the dictionary with
keys 'matrix', 'offset' and 'prob'. -/
structure Transformation where
  matrix : Mat2 ℚ
  offset : Pt
  prob : ℚ

/-- The Barnsley fern transform table, the module-level literal of source
lines 25–50. -/
def transformations : List Transformation :=
  [ ⟨⟨0, 0, 0, 0.16⟩, (0, 0), 0.01⟩,
    ⟨⟨0.85, 0.04, -0.04, 0.85⟩, (0, 1.6), 0.85⟩,
    ⟨⟨0.2, -0.26, 0.23, 0.22⟩, (0, 1.6), 0.07⟩,
    ⟨⟨-0.15, 0.28, 0.26, 0.24⟩, (0, 0.44), 0.07⟩ ]

/-- Table construction as performed by the source (lines 25–50): a plain list
literal bound to a module-level name. There is no validation of any kind in
that code path — any list of entries is accepted unchanged, and the error
branch of the return type is never used. -/
def build_transform_table (entries : List Transformation) :
    Except String (List Transformation) :=
  Except.ok entries

/-- `apply_transformation` (source lines 59–61):
`matrix.dot(point) + offset`. -/
def apply_transformation (point : Pt) (t : Transformation) : Pt :=
  t.matrix.mulVec point + t.offset

/-- The scanning loop of `choose_transformation` (source lines 69–73): the
first argument of the recursion is the running `cumulative_prob`; the first
entry `t` with `r ≤ cumulative_prob + t.prob` is returned, `none` means the
loop fell through. -/
def chooseLoop (r : ℚ) : ℚ → List Transformation → Option Transformation
  | _, [] => none
  | cumulative_prob, t :: ts =>
    let c := cumulative_prob + t.prob
    if r ≤ c then some t else chooseLoop r c ts

/-- `choose_transformation` (source lines 67–75). The draw
`r = random.random()` is an explicit argument. When the scan falls through,
the source returns `transformations[-1]`, i.e. the last element — which on an
empty list raises `IndexError`, modelled by `List.getLast?` returning
`none`. -/
def choose_transformation (ts : List Transformation) (r : ℚ) :
    Option Transformation :=
  match chooseLoop r 0 ts with
  | some t => some t
  | none => ts.getLast?

/-- Cumulative weight of the first `n` entries of a table (the value of
`cumulative_prob` after scanning `n` entries). -/
def cumWeight (ts : List Transformation) (n : Nat) : ℚ :=
  ((ts.take n).map Transformation.prob).sum

/-- The generation loop of `animate_barnsley` (source lines 90–93). `i` is
the loop index, `n` the number of iterations left, `current` the current
point; `r` streams the successive `random.random()` draws, indexed by loop
index. Returns the stored points of these iterations, in order; `none`
bubbles up the `IndexError` of `choose_transformation` on an empty table. -/
def barnsleyLoop (table : List Transformation) (r : Nat → ℚ) :
    Nat → Nat → Pt → Option (List Pt)
  | _, 0, _ => some []
  | i, n + 1, current =>
    match choose_transformation table (r i) with
    | none => none
    | some t =>
      let next := apply_transformation current t
      match barnsleyLoop table r (i + 1) n next with
      | none => none
      | some rest => some (next :: rest)

/-- Point generation of `animate_barnsley` (source lines 81–93): the point at
index 0 is `(0, 0)`, and the loop runs for indices `1 .. count - 1`. The
hardcoded `num_points = 200000` is generalised to `count`; `count = 0` models
the out-of-bounds write `points[0]` on a zero-row array (`IndexError`). -/
def animate_barnsley_points (table : List Transformation) (count : Nat)
    (r : Nat → ℚ) : Option (List Pt) :=
  match count with
  | 0 => none
  | n + 1 =>
    match barnsleyLoop table r 1 n ((0 : ℚ), (0 : ℚ)) with
    | none => none
    | some rest => some (((0 : ℚ), (0 : ℚ)) :: rest)

/-- The generation loop of `animate_sierpinski` (source lines 242–245): at
each index `i`, `chosen = random.choice(vertices)` — the choice stream `ch`
gives the index drawn — and `current = (current + chosen) / 2.0`. -/
def sierpinskiLoop (vertices : Fin 3 → Pt) (ch : Nat → Fin 3) :
    Nat → Nat → Pt → List Pt
  | _, 0, _ => []
  | i, n + 1, current =>
    let chosen := vertices (ch i)
    let next := ((current.1 + chosen.1) / 2, (current.2 + chosen.2) / 2)
    next :: sierpinskiLoop vertices ch (i + 1) n next

/-- Point generation of `animate_sierpinski` (source lines 221–245): the
point at index 0 is `vertices[0]` (the source starts at `current = A.copy()`
with `vertices = [A, B, C]`), and the loop runs for indices
`1 .. count - 1`. The hardcoded vertices and `total_points = 30000` are
generalised; `count = 0` models the out-of-bounds write `points_sier[0]`
(`IndexError`). -/
def animate_sierpinski_points (vertices : Fin 3 → Pt) (count : Nat)
    (ch : Nat → Fin 3) : Option (List Pt) :=
  match count with
  | 0 => none
  | n + 1 => some (vertices 0 :: sierpinskiLoop vertices ch 1 n (vertices 0))

/-- The hardcoded triangle of `animate_sierpinski` (source lines 227–229):
`A = (0,0)`, `B = (2,4)`, `C = (4,0)`. -/
def sierpinskiVertices : Fin 3 → Pt :=
  ![((0 : ℚ), (0 : ℚ)), ((2 : ℚ), (4 : ℚ)), ((4 : ℚ), (0 : ℚ))]

/-- `koch_curve_points` (source lines 134–163), over exact reals. The
rotation matrix is the source's `rot` with `cos60 = 0.5`,
`sin60 = √3/2`; the recursion drops the final point of the first three
sub-curves (`[:-1]`) before concatenating. -/
noncomputable def koch_curve_points : (ℝ × ℝ) → (ℝ × ℝ) → Nat → List (ℝ × ℝ)
  | p1, p2, 0 => [p1, p2]
  | p1, p2, depth + 1 =>
    let base := p2 - p1
    let pA := p1 + (base.1 / 3, base.2 / 3)
    let pB := p1 + (2 * base.1 / 3, 2 * base.2 / 3)
    let rot : Mat2 ℝ := ⟨0.5, -(Real.sqrt 3 / 2), Real.sqrt 3 / 2, 0.5⟩
    let peak := pA + rot.mulVec (base.1 / 3, base.2 / 3)
    (koch_curve_points p1 pA depth).dropLast ++
      (koch_curve_points pA peak depth).dropLast ++
      (koch_curve_points peak pB depth).dropLast ++
      koch_curve_points pB p2 depth

/-- Fuel-indexed variant of `koch_curve_points` whose depth is an `Int`, as a
Python integer is: the source tests only `depth == 0`, so a negative depth
takes the recursive branch with `depth - 1`. `none` means the recursion has
not reached a base case within `fuel` nested levels — for negative depth the
call never returns (Python eventually raises `RecursionError`), and it never
performs any argument validation. -/
noncomputable def kochFuel : Nat → (ℝ × ℝ) → (ℝ × ℝ) → Int → Option (List (ℝ × ℝ))
  | 0, _, _, _ => none
  | fuel + 1, p1, p2, depth =>
    if depth = 0 then some [p1, p2]
    else
      let base := p2 - p1
      let pA := p1 + (base.1 / 3, base.2 / 3)
      let pB := p1 + (2 * base.1 / 3, 2 * base.2 / 3)
      let rot : Mat2 ℝ := ⟨0.5, -(Real.sqrt 3 / 2), Real.sqrt 3 / 2, 0.5⟩
      let peak := pA + rot.mulVec (base.1 / 3, base.2 / 3)
      match kochFuel fuel p1 pA (depth - 1), kochFuel fuel pA peak (depth - 1),
          kochFuel fuel peak pB (depth - 1), kochFuel fuel pB p2 (depth - 1) with
      | some c1, some c2, some c3, some c4 =>
        some (c1.dropLast ++ c2.dropLast ++ c3.dropLast ++ c4)
      | _, _, _, _ => none

/-! ### Helper lemmas about the Koch subdivider -/

lemma koch_length : ∀ (d : Nat) (p1 p2 : ℝ × ℝ),
    (koch_curve_points p1 p2 d).length = 4 ^ d + 1
  | 0, _, _ => rfl
  | d + 1, p1, p2 => by
    simp only [koch_curve_points, List.length_append, List.length_dropLast,
      koch_length d]
    rw [pow_succ]
    omega

lemma koch_ne_nil (d : Nat) (p1 p2 : ℝ × ℝ) : koch_curve_points p1 p2 d ≠ [] := by
  have h := koch_length d p1 p2
  intro hnil
  rw [hnil] at h
  simp at h

lemma head?_dropLast_of_two_le {α : Type} {l : List α} {a : α}
    (h : l.head? = some a) (h2 : 2 ≤ l.length) : l.dropLast.head? = some a := by
  match l, h2 with
  | x :: y :: t, _ => simpa [List.dropLast_cons₂] using h

lemma koch_head? : ∀ (d : Nat) (p1 p2 : ℝ × ℝ),
    (koch_curve_points p1 p2 d).head? = some p1
  | 0, _, _ => rfl
  | d + 1, p1, p2 => by
    have h2 : ∀ q1 q2 : ℝ × ℝ, 2 ≤ (koch_curve_points q1 q2 d).length := by
      intro q1 q2
      have hp : 0 < 4 ^ d := pow_pos (by norm_num) d
      rw [koch_length d]
      omega
    simp only [koch_curve_points, List.head?_append,
      head?_dropLast_of_two_le (koch_head? d p1 _) (h2 p1 _), Option.or_some]

lemma koch_getLast? : ∀ (d : Nat) (p1 p2 : ℝ × ℝ),
    (koch_curve_points p1 p2 d).getLast? = some p2
  | 0, _, _ => rfl
  | d + 1, p1, p2 => by
    simp only [koch_curve_points]
    rw [List.getLast?_append_of_ne_nil _ (koch_ne_nil d _ p2)]
    exact koch_getLast? d _ p2

lemma kochFuel_of_neg : ∀ (fuel : Nat) (p1 p2 : ℝ × ℝ) (d : Int), d < 0 →
    kochFuel fuel p1 p2 d = none
  | 0, _, _, _, _ => rfl
  | fuel + 1, p1, p2, d, hd => by
    have hne : ¬d = 0 := by omega
    have h1 : ∀ q1 q2 : ℝ × ℝ, kochFuel fuel q1 q2 (d - 1) = none := fun q1 q2 =>
      kochFuel_of_neg fuel q1 q2 (d - 1) (by omega)
    simp [kochFuel, if_neg hne, h1]

/-! ### Helper lemmas about weighted transform selection -/

lemma cumWeight_cons (t : Transformation) (ts : List Transformation) (n : Nat) :
    cumWeight (t :: ts) (n + 1) = t.prob + cumWeight ts n := by
  simp [cumWeight]

lemma cumWeight_zero (ts : List Transformation) : cumWeight ts 0 = 0 := rfl

lemma chooseLoop_eq_some (r : ℚ) :
    ∀ (ts : List Transformation) (acc : ℚ) (i : Nat) (hi : i < ts.length),
      r ≤ acc + cumWeight ts (i + 1) →
      (∀ j < i, acc + cumWeight ts (j + 1) < r) →
      chooseLoop r acc ts = ts[i]?
  | [], _, i, hi, _, _ => absurd hi (by simp)
  | t :: ts, acc, 0, _, h1, _ => by
    rw [cumWeight_cons, cumWeight_zero] at h1
    simp only [chooseLoop]
    rw [if_pos (by linarith)]
    simp
  | t :: ts, acc, k + 1, hi, h1, h2 => by
    have h0 : acc + t.prob < r := by
      have := h2 0 (by omega)
      rwa [cumWeight_cons, cumWeight_zero, add_zero] at this
    simp only [chooseLoop]
    rw [if_neg (by linarith)]
    have hrec := chooseLoop_eq_some r ts (acc + t.prob) k (by simpa using hi)
      (by rw [cumWeight_cons] at h1; linarith)
      (by
        intro j hj
        have := h2 (j + 1) (by omega)
        rw [cumWeight_cons] at this
        linarith)
    rw [hrec]
    simp

lemma chooseLoop_eq_none (r : ℚ) :
    ∀ (ts : List Transformation) (acc : ℚ),
      (∀ i < ts.length, acc + cumWeight ts (i + 1) < r) →
      chooseLoop r acc ts = none
  | [], _, _ => rfl
  | t :: ts, acc, h => by
    have h0 : acc + t.prob < r := by
      have := h 0 (by simp)
      rwa [cumWeight_cons, cumWeight_zero, add_zero] at this
    simp only [chooseLoop]
    rw [if_neg (by linarith)]
    exact chooseLoop_eq_none r ts (acc + t.prob) (by
      intro i hi
      have := h (i + 1) (by simpa using hi)
      rw [cumWeight_cons] at this
      linarith)

lemma chooseLoop_mem (r : ℚ) :
    ∀ (ts : List Transformation) (acc : ℚ) (t : Transformation),
      chooseLoop r acc ts = some t → t ∈ ts
  | [], _, _, h => by simp [chooseLoop] at h
  | u :: ts, acc, t, h => by
    by_cases hc : r ≤ acc + u.prob
    · simp only [chooseLoop] at h
      rw [if_pos hc] at h
      simp only [Option.some.injEq] at h
      exact h ▸ List.mem_cons_self u ts
    · simp only [chooseLoop] at h
      rw [if_neg hc] at h
      exact List.mem_cons_of_mem u (chooseLoop_mem r ts (acc + u.prob) t h)

lemma choose_total (ts : List Transformation) (r : ℚ) (hne : ts ≠ []) :
    ∃ t, choose_transformation ts r = some t ∧ t ∈ ts := by
  cases h : chooseLoop r 0 ts with
  | some t =>
    exact ⟨t, by simp [choose_transformation, h], chooseLoop_mem r ts 0 t h⟩
  | none =>
    refine ⟨ts.getLast hne, ?_, List.getLast_mem hne⟩
    simp [choose_transformation, h, List.getLast?_eq_getLast ts hne]

/-! ### Helper lemmas about the two samplers -/

lemma barnsleyLoop_spec (table : List Transformation) (r : Nat → ℚ)
    (hT : table ≠ []) :
    ∀ (n i : Nat) (current : Pt),
      ∃ l, barnsleyLoop table r i n current = some l ∧ l.length = n ∧
        ∀ k, k < n → ∃ p t, (current :: l)[k]? = some p ∧
          choose_transformation table (r (i + k)) = some t ∧
          l[k]? = some (apply_transformation p t)
  | 0, i, current => ⟨[], rfl, rfl, by omega⟩
  | n + 1, i, current => by
    obtain ⟨t, ht, -⟩ := choose_total table (r i) hT
    obtain ⟨l, hl, hlen, hrec⟩ :=
      barnsleyLoop_spec table r hT n (i + 1) (apply_transformation current t)
    refine ⟨apply_transformation current t :: l, ?_, by simp [hlen], ?_⟩
    · simp [barnsleyLoop, ht, hl]
    · intro k hk
      cases k with
      | zero =>
        exact ⟨current, t, by simp, by simpa using ht, by simp⟩
      | succ k =>
        obtain ⟨p, t', hp, hc, hl'⟩ := hrec k (by omega)
        refine ⟨p, t', by simpa using hp, ?_, by simpa using hl'⟩
        have harg : i + (k + 1) = i + 1 + k := by omega
        rw [harg]
        exact hc

lemma sierpinskiLoop_spec (v : Fin 3 → Pt) (ch : Nat → Fin 3) :
    ∀ (n i : Nat) (current : Pt),
      (sierpinskiLoop v ch i n current).length = n ∧
      ∀ k, k < n →
        ∃ p, (current :: sierpinskiLoop v ch i n current)[k]? = some p ∧
          (sierpinskiLoop v ch i n current)[k]? =
            some ((p.1 + (v (ch (i + k))).1) / 2, (p.2 + (v (ch (i + k))).2) / 2)
  | 0, i, current => ⟨rfl, by omega⟩
  | n + 1, i, current => by
    obtain ⟨hlen, hrec⟩ := sierpinskiLoop_spec v ch n (i + 1)
      ((current.1 + (v (ch i)).1) / 2, (current.2 + (v (ch i)).2) / 2)
    refine ⟨by simp [sierpinskiLoop, hlen], ?_⟩
    intro k hk
    cases k with
    | zero => exact ⟨current, by simp [sierpinskiLoop], by simp [sierpinskiLoop]⟩
    | succ k =>
      obtain ⟨p, hp, hmid⟩ := hrec k (by omega)
      refine ⟨p, ?_, ?_⟩
      · simpa [sierpinskiLoop] using hp
      · have harg : i + (k + 1) = i + 1 + k := by omega
        rw [harg]
        simpa [sierpinskiLoop] using hmid

lemma vertex_mem_triple (v : Fin 3 → Pt) (j : Fin 3) :
    v j ∈ ({v 0, v 1, v 2} : Set Pt) := by
  fin_cases j <;> simp

lemma sierpinskiLoop_mem_hull (v : Fin 3 → Pt) (ch : Nat → Fin 3) :
    ∀ (n i : Nat) (current : Pt),
      current ∈ convexHull ℚ ({v 0, v 1, v 2} : Set Pt) →
      ∀ q ∈ sierpinskiLoop v ch i n current,
        q ∈ convexHull ℚ ({v 0, v 1, v 2} : Set Pt)
  | 0, i, current, hcur => by simp [sierpinskiLoop]
  | n + 1, i, current, hcur => by
    have hv : v (ch i) ∈ convexHull ℚ ({v 0, v 1, v 2} : Set Pt) :=
      subset_convexHull ℚ _ (vertex_mem_triple v (ch i))
    have hnext : ((current.1 + (v (ch i)).1) / 2, (current.2 + (v (ch i)).2) / 2) ∈
        convexHull ℚ ({v 0, v 1, v 2} : Set Pt) := by
      have hcomb := (convex_convexHull ℚ ({v 0, v 1, v 2} : Set Pt)) hcur hv
        (by norm_num : (0 : ℚ) ≤ 1 / 2) (by norm_num : (0 : ℚ) ≤ 1 / 2)
        (by norm_num : (1 : ℚ) / 2 + 1 / 2 = 1)
      have heq : ((1 : ℚ) / 2) • current + ((1 : ℚ) / 2) • v (ch i) =
          ((current.1 + (v (ch i)).1) / 2, (current.2 + (v (ch i)).2) / 2) := by
        simp [Prod.ext_iff, smul_eq_mul]
        constructor <;> ring
      rwa [heq] at hcomb
    intro q hq
    rcases List.mem_cons.mp (by simpa [sierpinskiLoop] using hq) with rfl | hq'
    · exact hnext
    · exact sierpinskiLoop_mem_hull v ch n (i + 1) _ hnext q hq'

/-! ### The claims -/

/-- C1 (amended): for every pair of endpoints `p1, p2` and every depth
`d ≥ 0`, the Koch subdivider returns a sequence of exactly `4 ^ d + 1` points
(the claim's `3 ^ d + 1` is wrong: each level replaces a segment by four)
whose first point is `p1` and whose last point is `p2`; at depth 0 it returns
exactly the two-element sequence `[p1, p2]`. -/
theorem C1_koch_point_count_and_endpoints (p1 p2 : ℝ × ℝ) (d : Nat) :
    (koch_curve_points p1 p2 d).length = 4 ^ d + 1 ∧
    (koch_curve_points p1 p2 d).head? = some p1 ∧
    (koch_curve_points p1 p2 d).getLast? = some p2 ∧
    koch_curve_points p1 p2 0 = [p1, p2] :=
  ⟨koch_length d p1 p2, koch_head? d p1 p2, koch_getLast? d p1 p2, rfl⟩

/-- C1, counterexample to the claim as stated: at depth 1 the subdivision of
`(0,0)–(3,0)` has 5 points, not `3 ^ 1 + 1 = 4`. -/
theorem C1_counterexample_three_pow_count :
    (koch_curve_points ((0 : ℝ), (0 : ℝ)) ((3 : ℝ), (0 : ℝ)) 1).length ≠ 3 ^ 1 + 1 := by
  simp [koch_length]

/-- C2: weighted transform selection scans the transforms in table order
accumulating their weights and returns the first transform whose cumulative
weight is `≥ r` (the source's `r <= cumulative_prob`); when every cumulative
prefix stays below `r` — in particular when `r` exceeds the final cumulative
sum — it returns the last transform of the table instead of failing. -/
theorem C2_weighted_selection_first_hit_or_last (ts : List Transformation) (r : ℚ) :
    (∀ (i : Nat) (hi : i < ts.length), r ≤ cumWeight ts (i + 1) →
      (∀ j < i, cumWeight ts (j + 1) < r) →
      choose_transformation ts r = ts[i]?) ∧
    ((∀ i < ts.length, cumWeight ts (i + 1) < r) →
      choose_transformation ts r = ts.getLast?) := by
  constructor
  · intro i hi h1 h2
    have h0 : chooseLoop r 0 ts = ts[i]? :=
      chooseLoop_eq_some r ts 0 i hi (by simpa using h1) (by simpa using h2)
    have he : ts[i]? = some ts[i] := List.getElem?_eq_getElem hi
    rw [he] at h0
    simp [choose_transformation, h0, he]
  · intro h
    have h0 : chooseLoop r 0 ts = none :=
      chooseLoop_eq_none r ts 0 (by simpa using h)
    simp [choose_transformation, h0]

/-- C3: for every non-empty transform table and every count `≥ 1`, the
Barnsley IFS sampler returns exactly `count` points, the point at index 0 is
`(0, 0)`, and each later point is `M·p + offset` for the previous point `p`
and the transform drawn by weighted selection at that step. -/
theorem C3_barnsley_generation (table : List Transformation) (count : Nat)
    (r : Nat → ℚ) (hT : table ≠ []) (hc : 1 ≤ count) :
    ∃ pts, animate_barnsley_points table count r = some pts ∧
      pts.length = count ∧
      pts[0]? = some ((0 : ℚ), (0 : ℚ)) ∧
      ∀ i, 1 ≤ i → i < count →
        ∃ p t, pts[i - 1]? = some p ∧
          choose_transformation table (r i) = some t ∧
          pts[i]? = some (apply_transformation p t) := by
  obtain ⟨n, rfl⟩ : ∃ n, count = n + 1 := ⟨count - 1, by omega⟩
  obtain ⟨l, hl, hlen, hrec⟩ := barnsleyLoop_spec table r hT n 1 ((0 : ℚ), (0 : ℚ))
  refine ⟨((0 : ℚ), (0 : ℚ)) :: l, ?_, by simp [hlen], by simp, ?_⟩
  · simp only [animate_barnsley_points]
    rw [hl]
  · intro i h1 hi
    obtain ⟨k, rfl⟩ : ∃ k, i = k + 1 := ⟨i - 1, by omega⟩
    obtain ⟨p, t, hp, hc', hl'⟩ := hrec k (by omega)
    refine ⟨p, t, by simpa using hp, ?_, by simpa using hl'⟩
    have harg : 1 + k = k + 1 := by omega
    rw [← harg]
    exact hc'

/-- C3, witness: the generation contract instantiated on the source's table,
count 2 and the constant draw 1/2. -/
theorem C3_barnsley_generation_witness :
    ∃ pts, animate_barnsley_points transformations 2 (fun _ => (1 : ℚ) / 2) = some pts ∧
      pts.length = 2 ∧
      pts[0]? = some ((0 : ℚ), (0 : ℚ)) ∧
      ∀ i, 1 ≤ i → i < 2 →
        ∃ p t, pts[i - 1]? = some p ∧
          choose_transformation transformations ((fun _ => (1 : ℚ) / 2) i) = some t ∧
          pts[i]? = some (apply_transformation p t) :=
  C3_barnsley_generation transformations 2 (fun _ => (1 : ℚ) / 2)
    (by simp [transformations]) (by omega)

/-- C4: for every 3-element vertex assignment and every count `≥ 1`, the
Sierpinski midpoint sampler returns exactly `count` points, the point at
index 0 is `vertices[0]`, and each later point is the midpoint of the
previous point and the vertex drawn at that step. -/
theorem C4_sierpinski_generation (v : Fin 3 → Pt) (count : Nat) (ch : Nat → Fin 3)
    (hc : 1 ≤ count) :
    ∃ pts, animate_sierpinski_points v count ch = some pts ∧
      pts.length = count ∧
      pts[0]? = some (v 0) ∧
      ∀ i, 1 ≤ i → i < count →
        ∃ p, pts[i - 1]? = some p ∧
          pts[i]? = some ((p.1 + (v (ch i)).1) / 2, (p.2 + (v (ch i)).2) / 2) := by
  obtain ⟨n, rfl⟩ : ∃ n, count = n + 1 := ⟨count - 1, by omega⟩
  obtain ⟨hlen, hrec⟩ := sierpinskiLoop_spec v ch n 1 (v 0)
  refine ⟨v 0 :: sierpinskiLoop v ch 1 n (v 0), rfl, by simp [hlen], by simp, ?_⟩
  intro i h1 hi
  obtain ⟨k, rfl⟩ : ∃ k, i = k + 1 := ⟨i - 1, by omega⟩
  obtain ⟨p, hp, hmid⟩ := hrec k (by omega)
  refine ⟨p, by simpa using hp, ?_⟩
  rw [show 1 + k = k + 1 from by omega] at hmid
  simpa using hmid

/-- C4, witness: the generation contract instantiated on the source's
triangle, count 2 and the constant choice of vertex 0. -/
theorem C4_sierpinski_generation_witness :
    ∃ pts, animate_sierpinski_points sierpinskiVertices 2 (fun _ => 0) = some pts ∧
      pts.length = 2 ∧
      pts[0]? = some (sierpinskiVertices 0) ∧
      ∀ i, 1 ≤ i → i < 2 →
        ∃ p, pts[i - 1]? = some p ∧
          pts[i]? = some ((p.1 + (sierpinskiVertices ((fun _ => (0 : Fin 3)) i)).1) / 2,
            (p.2 + (sierpinskiVertices ((fun _ => (0 : Fin 3)) i)).2) / 2) :=
  C4_sierpinski_generation sierpinskiVertices 2 (fun _ => 0) (by omega)

/-- C5: every point produced by the Sierpinski midpoint sampler — the first
included — lies within the convex hull of the three vertices. -/
theorem C5_sierpinski_convex_hull (v : Fin 3 → Pt) (count : Nat) (ch : Nat → Fin 3)
    (pts : List Pt) (p : Pt)
    (h : animate_sierpinski_points v count ch = some pts) (hp : p ∈ pts) :
    p ∈ convexHull ℚ ({v 0, v 1, v 2} : Set Pt) := by
  cases count with
  | zero => simp [animate_sierpinski_points] at h
  | succ n =>
    simp only [animate_sierpinski_points, Option.some.injEq] at h
    subst h
    have h0 : v 0 ∈ convexHull ℚ ({v 0, v 1, v 2} : Set Pt) :=
      subset_convexHull ℚ _ (by simp)
    rcases List.mem_cons.mp hp with rfl | hq
    · exact h0
    · exact sierpinskiLoop_mem_hull v ch n 1 (v 0) h0 p hq

/-- C5, witness: the starting vertex of a 1-point run on the source's
triangle lies in the hull of its vertices. -/
theorem C5_sierpinski_convex_hull_witness :
    ((0 : ℚ), (0 : ℚ)) ∈ convexHull ℚ
      ({sierpinskiVertices 0, sierpinskiVertices 1, sierpinskiVertices 2} : Set Pt) :=
  C5_sierpinski_convex_hull sierpinskiVertices 1 (fun _ => 0) [((0 : ℚ), (0 : ℚ))]
    ((0 : ℚ), (0 : ℚ)) rfl (by simp)

/-- C6: the Koch subdivision of the segment from `(0,0)` to `(3,0)` at
depth 1 is exactly `(0,0), (1,0), (1.5, √3/2), (2,0), (3,0)`: interior
division points at 1/3 and 2/3 of the base, apex at the first division point
plus the base third rotated by +60°. -/
theorem C6_koch_depth_one_points :
    koch_curve_points ((0 : ℝ), (0 : ℝ)) ((3 : ℝ), (0 : ℝ)) 1 =
      [((0 : ℝ), (0 : ℝ)), ((1 : ℝ), (0 : ℝ)), ((3 / 2 : ℝ), Real.sqrt 3 / 2),
       ((2 : ℝ), (0 : ℝ)), ((3 : ℝ), (0 : ℝ))] := by
  simp only [koch_curve_points, Mat2.mulVec]
  norm_num

/-- C7: both stochastic samplers are deterministic given the seed: with the
random source modelled as a stream of draws derived from the seed, two runs
with identical table (resp. vertices), identical count and identical seed
produce identical point sequences. -/
theorem C7_seed_determinism (table : List Transformation) (v : Fin 3 → Pt)
    (count : Nat) (R : Nat → Nat → ℚ) (CH : Nat → Nat → Fin 3) (s1 s2 : Nat)
    (hs : s1 = s2) :
    animate_barnsley_points table count (R s1) =
      animate_barnsley_points table count (R s2) ∧
    animate_sierpinski_points v count (CH s1) =
      animate_sierpinski_points v count (CH s2) := by
  subst hs
  exact ⟨rfl, rfl⟩

/-- C7, witness: two runs of each sampler with the same seed 7 coincide. -/
theorem C7_seed_determinism_witness :
    animate_barnsley_points transformations 100 ((fun _ _ => (1 : ℚ) / 2) 7) =
      animate_barnsley_points transformations 100 ((fun _ _ => (1 : ℚ) / 2) 7) ∧
    animate_sierpinski_points sierpinskiVertices 100 ((fun _ _ => (0 : Fin 3)) 7) =
      animate_sierpinski_points sierpinskiVertices 100 ((fun _ _ => (0 : Fin 3)) 7) :=
  C7_seed_determinism transformations sierpinskiVertices 100 (fun _ _ => (1 : ℚ) / 2)
    (fun _ _ => (0 : Fin 3)) 7 7 rfl

/-- C8 (amended): the code performs no `InvalidArgument` validation at all.
In particular a negative Koch depth is not detected and does not fail fast:
the subdivider never reaches its base case, so for every recursion budget it
has produced no result (Python eventually dies with `RecursionError`); the
samplers have no count or vertex parameters to validate, their counts being
hardcoded constants. -/
theorem C8_negative_depth_never_returns (fuel : Nat) (p1 p2 : ℝ × ℝ) (d : Int)
    (hd : d < 0) : kochFuel fuel p1 p2 d = none :=
  kochFuel_of_neg fuel p1 p2 d hd

/-- C8, witness: at depth `-1` the subdivider is still running after 3 levels
of recursion. -/
theorem C8_negative_depth_never_returns_witness :
    kochFuel 3 ((0 : ℝ), (0 : ℝ)) ((1 : ℝ), (0 : ℝ)) (-1) = none :=
  C8_negative_depth_never_returns 3 ((0 : ℝ), (0 : ℝ)) ((1 : ℝ), (0 : ℝ)) (-1)
    (by decide)

/-- C8, counterexample to the claim as stated: a call with depth `-1` is not
rejected with `InvalidArgument` — it has produced nothing after 5 levels of
recursion, while the same budget settles depth 0 at once. -/
theorem C8_counterexample_no_fail_fast :
    kochFuel 5 ((0 : ℝ), (0 : ℝ)) ((1 : ℝ), (0 : ℝ)) (-1) = none ∧
    kochFuel 5 ((0 : ℝ), (0 : ℝ)) ((1 : ℝ), (0 : ℝ)) 0 =
      some [((0 : ℝ), (0 : ℝ)), ((1 : ℝ), (0 : ℝ))] :=
  ⟨kochFuel_of_neg 5 ((0 : ℝ), (0 : ℝ)) ((1 : ℝ), (0 : ℝ)) (-1) (by decide), rfl⟩

/-- C9 (amended): the source constructs its transform table as a literal with
no construction-time validation — any list of entries, however malformed, is
accepted unchanged. The fixed table itself does satisfy the intended
invariant: its weights are `0.01, 0.85, 0.07, 0.07`, each positive, summing
exactly to 1. -/
theorem C9_table_construction_unvalidated :
    (∀ entries, build_transform_table entries = Except.ok entries) ∧
    transformations.map Transformation.prob = [0.01, 0.85, 0.07, 0.07] ∧
    (transformations.map Transformation.prob).sum = 1 ∧
    (0 : ℚ) < 0.01 ∧ (0 : ℚ) < 0.85 ∧ (0 : ℚ) < 0.07 := by
  refine ⟨fun _ => rfl, rfl, ?_, by norm_num, by norm_num, by norm_num⟩
  norm_num [transformations]

/-- C9, counterexample to the claim as stated: constructing an empty table,
or a table whose only weight is negative, succeeds — nothing is rejected with
`InvalidConfiguration`. -/
theorem C9_counterexample_empty_table_accepted :
    build_transform_table [] = Except.ok [] ∧
    build_transform_table [⟨⟨0, 0, 0, 0⟩, (0, 0), -1⟩] =
      Except.ok [⟨⟨0, 0, 0, 0⟩, (0, 0), -1⟩] :=
  ⟨rfl, rfl⟩

/-- C10: weighted selection is total on every non-empty transform list: for
every draw `r` in `[0, 1]` it returns an element of the input list and never
fails, the final fallback covering any `r` beyond the accumulated sum. -/
theorem C10_choose_total_on_nonempty (ts : List Transformation) (r : ℚ)
    (hne : ts ≠ []) (h0 : 0 ≤ r) (h1 : r ≤ 1) :
    ∃ t, choose_transformation ts r = some t ∧ t ∈ ts :=
  choose_total ts r hne

/-- C10, witness: selection on the source's table at the draw 1/2 succeeds
with an element of the table. -/
theorem C10_choose_total_on_nonempty_witness :
    ∃ t, choose_transformation transformations (1 / 2) = some t ∧
      t ∈ transformations :=
  C10_choose_total_on_nonempty transformations (1 / 2) (by simp [transformations])
    (by norm_num) (by norm_num)
